import Mathlib

/-!
Formal model of the MPC action-selection policy implemented in
`cs285/policies/MPC_policy.py` (hw4).

Numbers are modelled as rationals.  An action is a `List ℚ` of length
`ac_dim`; an action sequence is a `List (List ℚ)` of length `horizon`;
a candidate batch is a `List` of sequences (numpy shape `(N, H, A)`).

Randomness is modelled by an oracle `RNG`: `np.random.uniform(low, high)`
draws `low + (high - low) * u` with a unit-interval stream `u`, and
`np.random.normal(loc, scale=sqrt(var))` is an oracle receiving the
location and the variance together with the draw's position.

A Python `assert` failure or uncaught exception is modelled by `none`
(`Option`), and the constructor's validation by `Except`.
-/

/-- Normalization statistics: treated as an uninterpreted payload that the
policy passes through unchanged to every model prediction call.  `none`
models the Python `self.data_statistics is None` (uncalibrated) state. -/
def DataStats := List ℚ

/-- The environment collaborator: action bounds and the per-row reward
function.  `get_reward` on a batch is the row-wise application of this
function; it returns a reward and a done flag. -/
structure Env where
  low : List ℚ
  high : List ℚ
  get_reward : List ℚ → List ℚ → ℚ × Bool

/-- A dynamics model: one-step next-observation prediction, applied
row-wise over a batch, receiving the normalization statistics. -/
structure DynModel where
  get_prediction : List ℚ → List ℚ → Option DataStats → List ℚ

/-- The random-number oracle.  `unif01 iter n t i` is the unit-interval
draw used for element `(n, t, i)` of the uniform sample taken at CEM
iteration `iter` (iteration 0 also serves the plain random strategy);
`normal loc var iter n t i` is the Gaussian draw with location `loc` and
variance `var` at that position. -/
structure RNG where
  unif01 : Nat → Nat → Nat → Nat → ℚ
  normal : ℚ → ℚ → Nat → Nat → Nat → Nat → ℚ

/-- The policy state after `MPCPolicy.__init__`. -/
structure MPCPolicy where
  env : Env
  ac_dim : Nat
  dyn_models : List DynModel
  horizon : Nat
  N : Nat
  sample_strategy : String
  cem_iterations : Nat
  cem_num_elites : Nat
  cem_alpha : ℚ
  data_statistics : Option DataStats

/-- Constructor `MPCPolicy.__init__`: the only validation performed is the assert
`sample_strategy in ('random', 'cem')`; everything else is stored as
given, and `data_statistics` starts as `None`. -/
def MPCPolicy.init (env : Env) (ac_dim : Nat) (dyn_models : List DynModel)
    (horizon : Nat) (N : Nat) (sample_strategy : String)
    (cem_iterations : Nat) (cem_num_elites : Nat) (cem_alpha : ℚ) :
    Except String MPCPolicy :=
  if sample_strategy = "random" ∨ sample_strategy = "cem" then
    Except.ok
      { env := env
        ac_dim := ac_dim
        dyn_models := dyn_models
        horizon := horizon
        N := N
        sample_strategy := sample_strategy
        cem_iterations := cem_iterations
        cem_num_elites := cem_num_elites
        cem_alpha := cem_alpha
        data_statistics := none }
  else
    Except.error "sample_strategy must be one of the following"

/-- Model of `np.random.uniform(low=self.low, high=self.high, size=(ns, h, ac_dim))`:
element `(n, t, i)` is `low[i] + (high[i] - low[i]) * u` with `u` the
unit draw at that position of call `iter`. -/
def uniformSample (p : MPCPolicy) (rng : RNG) (iter num_sequences horizon : Nat) :
    List (List (List ℚ)) :=
  (List.range num_sequences).map fun n =>
    (List.range horizon).map fun t =>
      (List.range p.ac_dim).map fun i =>
        p.env.low.getD i 0 + (p.env.high.getD i 0 - p.env.low.getD i 0) * rng.unif01 iter n t i

/-- Model of `np.random.normal(loc=running_mean, scale=np.sqrt(running_var),
size=(ns, h, ac_dim))`, modelled through the Gaussian oracle. -/
def normalSample (p : MPCPolicy) (rng : RNG) (mean var : List (List ℚ))
    (iter num_sequences horizon : Nat) : List (List (List ℚ)) :=
  (List.range num_sequences).map fun n =>
    (List.range horizon).map fun t =>
      (List.range p.ac_dim).map fun i =>
        rng.normal ((mean.getD t []).getD i 0) ((var.getD t []).getD i 0) iter n t i

/-- One step of the rollout loop inside `calculate_sum_of_rewards`:
extract the actions at timestep `t`, query `env.get_reward` on the
batched pairs (the done component is computed and discarded), add the
rewards to the running per-candidate sums, and advance the batched
observation with `model.get_prediction`. -/
def rolloutStep (p : MPCPolicy) (model : DynModel) (seqs : List (List (List ℚ)))
    (st : List (List ℚ) × List ℚ) (t : Nat) : List (List ℚ) × List ℚ :=
  let actions := seqs.map fun s => s.getD t []
  let pairs := st.1.zip actions
  let rewards := pairs.map fun oa => (p.env.get_reward oa.1 oa.2).1
  let newSums := (st.2.zip rewards).map fun sr => sr.1 + sr.2
  let newObs := pairs.map fun oa => model.get_prediction oa.1 oa.2 p.data_statistics
  (newObs, newSums)

/-- The state of the rollout loop after `m` of the `self.horizon`
steps, starting from the tiled observation (`np.tile(obs, (N, 1))`)
and the zero per-candidate sums (`np.zeros(N)`). -/
def rolloutState (p : MPCPolicy) (model : DynModel) (seqs : List (List (List ℚ)))
    (obs : List ℚ) (m : Nat) : List (List ℚ) × List ℚ :=
  (List.range m).foldl (rolloutStep p model seqs)
    (List.replicate seqs.length obs, List.replicate seqs.length (0 : ℚ))

/-- Method `MPCPolicy.calculate_sum_of_rewards`: asserts that the batch's
horizon equals the configured horizon (`none` on failure), tiles the
current observation over the `N` candidates, and runs the reward
accumulation loop for the full `self.horizon` steps. -/
def calculate_sum_of_rewards (p : MPCPolicy) (obs : List ℚ)
    (seqs : List (List (List ℚ))) (model : DynModel) : Option (List ℚ) :=
  if seqs.all fun s => s.length == p.horizon then
    some (rolloutState p model seqs obs p.horizon).2
  else
    none

/-- One step of the running-sum loop over the ensemble inside
`evaluate_candidate_sequences`: add this model's per-candidate reward
sums (elementwise, the numpy broadcast add) to the accumulator. -/
def ensembleStep (p : MPCPolicy) (obs : List ℚ) (seqs : List (List (List ℚ)))
    (acc : Option (List ℚ)) (model : DynModel) : Option (List ℚ) :=
  acc.bind fun a =>
    (calculate_sum_of_rewards p obs seqs model).map fun r =>
      (a.zip r).map fun xy => xy.1 + xy.2

/-- Method `MPCPolicy.evaluate_candidate_sequences`: a running sum over the
ensemble of `calculate_sum_of_rewards`, divided at the end by the
number of candidate sequences. -/
def evaluate_candidate_sequences (p : MPCPolicy) (seqs : List (List (List ℚ)))
    (obs : List ℚ) : Option (List ℚ) :=
  let num_sequences := seqs.length
  (p.dyn_models.foldl (ensembleStep p obs seqs)
    (some (List.replicate num_sequences (0 : ℚ)))).map
    fun s => s.map fun x => x / (num_sequences : ℚ)

/-- Model of `np.argsort`: the indices of `xs` ordered by ascending value (a
stable order is one admissible realization of numpy's unspecified
tie-break). -/
def argsort (xs : List ℚ) : List Nat :=
  List.insertionSort (fun a b => xs.getD a 0 ≤ xs.getD b 0) (List.range xs.length)

/-- The Python slice `l[-e:]`: for `e = 0` the whole list, otherwise
the last `min e l.length` elements. -/
def sliceLastPy (l : List Nat) (e : Nat) : List Nat :=
  if e = 0 then l else l.drop (l.length - e)

/-- Element `(n, t, i)` of a candidate batch. -/
def indexSeq (seqs : List (List (List ℚ))) (n t i : Nat) : ℚ :=
  ((seqs.getD n []).getD t []).getD i 0

/-- Grid `np.mean(seqs[idxs, :, :], axis=0)`: the elementwise mean over the
selected sequences, a `(horizon, ac_dim)` grid. -/
def eliteMean (seqs : List (List (List ℚ))) (idxs : List Nat) (horizon ac_dim : Nat) :
    List (List ℚ) :=
  (List.range horizon).map fun t =>
    (List.range ac_dim).map fun i =>
      (idxs.map fun n => indexSeq seqs n t i).sum / (idxs.length : ℚ)

/-- Grid `np.var(seqs[idxs, :, :], axis=0)`: the elementwise variance over
the selected sequences. -/
def eliteVar (seqs : List (List (List ℚ))) (idxs : List Nat) (horizon ac_dim : Nat) :
    List (List ℚ) :=
  (List.range horizon).map fun t =>
    (List.range ac_dim).map fun i =>
      let m := (idxs.map fun n => indexSeq seqs n t i).sum / (idxs.length : ℚ)
      (idxs.map fun n => (indexSeq seqs n t i - m) ^ 2).sum / (idxs.length : ℚ)

/-- Elementwise `alpha * X + (1 - alpha) * Y` on `(horizon, ac_dim)` grids:
the exponential-smoothing update of the running mean and variance. -/
def gridSmooth (alpha : ℚ) (x y : List (List ℚ)) : List (List ℚ) :=
  (x.zip y).map fun rs => (rs.1.zip rs.2).map fun ab => alpha * ab.1 + (1 - alpha) * ab.2

/-- The loop-carried state of the CEM refinement loop: the running mean
and variance, and the sampled batch and elite indices of the iteration
just finished (the Python local variables at the bottom of the loop
body). -/
structure CemState where
  running_mean : List (List ℚ)
  running_var : List (List ℚ)
  sampled : List (List (List ℚ))
  elites : List Nat
deriving DecidableEq

/-- Iteration `i = 0` of the CEM loop: uniform sampling, evaluation,
elite selection, and the initial mean/variance (no smoothing). -/
def cemStep0 (p : MPCPolicy) (rng : RNG) (obs : List ℚ) (num_sequences horizon : Nat) :
    Option CemState :=
  let sampled := uniformSample p rng 0 num_sequences horizon
  match evaluate_candidate_sequences p sampled obs with
  | none => none
  | some rewards =>
    let elites := sliceLastPy (argsort rewards) p.cem_num_elites
    some
      { running_mean := eliteMean sampled elites horizon p.ac_dim
        running_var := eliteVar sampled elites horizon p.ac_dim
        sampled := sampled
        elites := elites }

/-- Iteration `i > 0` of the CEM loop: Gaussian sampling from the
running mean/variance, evaluation, elite selection, and the smoothed
mean/variance update with `cem_alpha`. -/
def cemStepSucc (p : MPCPolicy) (rng : RNG) (obs : List ℚ)
    (num_sequences horizon iter : Nat) (st : CemState) : Option CemState :=
  let sampled := normalSample p rng st.running_mean st.running_var iter num_sequences horizon
  match evaluate_candidate_sequences p sampled obs with
  | none => none
  | some rewards =>
    let elites := sliceLastPy (argsort rewards) p.cem_num_elites
    some
      { running_mean := gridSmooth p.cem_alpha (eliteMean sampled elites horizon p.ac_dim) st.running_mean
        running_var := gridSmooth p.cem_alpha (eliteVar sampled elites horizon p.ac_dim) st.running_var
        sampled := sampled
        elites := elites }

/-- The whole `for i in range(self.cem_iterations)` loop.  With zero
iterations the Python code would read an unassigned local
(`sampled_action_sequences`), an uncaught error, modelled by `none`. -/
def cem_run (p : MPCPolicy) (rng : RNG) (obs : List ℚ) (num_sequences horizon : Nat) :
    Option CemState :=
  if p.cem_iterations = 0 then none
  else
    (List.range (p.cem_iterations - 1)).foldl
      (fun ost j => ost.bind (cemStepSucc p rng obs num_sequences horizon (j + 1)))
      (cemStep0 p rng obs num_sequences horizon)

/-- Method `MPCPolicy.sample_action_sequences`.  The random strategy (and the
cem strategy called without an observation) returns the uniform batch;
the cem strategy with an observation runs the refinement loop and
returns the elite mean of the last iteration as a batch of one
(`cem_action[None]`); any other strategy raises (`none`). -/
def sample_action_sequences (p : MPCPolicy) (rng : RNG) (num_sequences horizon : Nat)
    (obs : Option (List ℚ)) : Option (List (List (List ℚ))) :=
  if p.sample_strategy = "random" ∨ (p.sample_strategy = "cem" ∧ obs = none) then
    some (uniformSample p rng 0 num_sequences horizon)
  else if p.sample_strategy = "cem" then
    match obs with
    | some o =>
      (cem_run p rng o num_sequences horizon).map fun st =>
        [eliteMean st.sampled st.elites horizon p.ac_dim]
    | none => none
  else
    none

/-- The running best index of `np.argmax` after scanning the first `m`
entries: a later entry replaces the current best only when strictly
greater. -/
def argmaxAux (xs : List ℚ) (m : Nat) : Nat :=
  (List.range m).foldl (fun b j => if xs.getD b 0 < xs.getD j 0 then j else b) 0

/-- Model of `np.argmax`: the first (least) index attaining the maximum; `0` on
an empty list. -/
def np_argmax (xs : List ℚ) : Nat :=
  argmaxAux xs xs.length

/-- Method `MPCPolicy.get_action`.  Uncalibrated (`data_statistics is None`):
return `sample_action_sequences(1, 1)[0]`, the one-step sequence holding
the single sampled action.  Calibrated: sample `(N, horizon)` candidates;
a batch of exactly one sequence short-circuits to its first action,
otherwise evaluate all candidates and return the first action of the
`np.argmax` sequence; either way the action is wrapped as `a[None]`. -/
def get_action (p : MPCPolicy) (rng : RNG) (obs : List ℚ) : Option (List (List ℚ)) :=
  match p.data_statistics with
  | none => (sample_action_sequences p rng 1 1 none).map fun s => s.getD 0 []
  | some _ =>
    match sample_action_sequences p rng p.N p.horizon (some obs) with
    | none => none
    | some cand =>
      if cand.length = 1 then
        some [(cand.getD 0 []).getD 0 []]
      else
        match evaluate_candidate_sequences p cand obs with
        | none => none
        | some rewards =>
          some [(cand.getD (np_argmax rewards) []).getD 0 []]

/-- The predicted observation of candidate sequence `s` at timestep `t`:
`obs` at `t = 0`, then one model prediction per step. -/
def predictedObs (p : MPCPolicy) (model : DynModel) (s : List (List ℚ))
    (obs : List ℚ) : Nat → List ℚ
  | 0 => obs
  | t + 1 => model.get_prediction (predictedObs p model s obs t) (s.getD t []) p.data_statistics

/-- A candidate batch has numpy shape `(ns, h, a)`. -/
def batchShape (ns h a : Nat) (seqs : List (List (List ℚ))) : Prop :=
  seqs.length = ns ∧ ∀ s ∈ seqs, s.length = h ∧ ∀ act ∈ s, act.length = a

/-- The defining property of a CEM loop state: its elite indices are
the tail slice of the argsort of the evaluated rewards of its own
sampled batch — the top `cem_num_elites` candidates of that (the last
executed) iteration. -/
def lastIterWitness (p : MPCPolicy) (obs : List ℚ) (st : CemState) : Prop :=
  ∃ rw, evaluate_candidate_sequences p st.sampled obs = some rw ∧
    st.elites = sliceLastPy (argsort rw) p.cem_num_elites

/-- A test environment: one action dimension bounded by `[0, 1]`, unit
reward everywhere. -/
def envConst1 : Env :=
  { low := [0], high := [1], get_reward := fun _ _ => (1, false) }

/-- A test environment whose reward is the first action component. -/
def envAct : Env :=
  { low := [0], high := [1], get_reward := fun _ a => (a.getD 0 0, false) }

/-- The identity dynamics model: the observation never changes. -/
def mId : DynModel := { get_prediction := fun o _ _ => o }

/-- A deterministic test oracle: the unit draw is `0` for candidate `0`
and `1` for every later candidate; Gaussian draws sit at the location. -/
def rngT : RNG :=
  { unif01 := fun _ n _ _ => if n = 0 then 0 else 1
    normal := fun loc _ _ _ _ _ => loc }

/-- A calibrated policy with a two-model ensemble of identical
constant-reward models (horizon 1, one candidate sequence). -/
def pC1 : MPCPolicy :=
  { env := envConst1, ac_dim := 1, dyn_models := [mId, mId], horizon := 1, N := 1
    sample_strategy := "random", cem_iterations := 4, cem_num_elites := 5
    cem_alpha := 1, data_statistics := some [] }

/-- A calibrated cem-strategy policy: two candidates, one elite, one
refinement iteration. -/
def pC3 : MPCPolicy :=
  { env := envAct, ac_dim := 1, dyn_models := [mId], horizon := 1, N := 2
    sample_strategy := "cem", cem_iterations := 1, cem_num_elites := 1
    cem_alpha := 1, data_statistics := some [] }

/-- The CEM state `cem_run pC3 rngT [0] 2 1` reaches: candidates
`[[0]]` and `[[1]]`, elite index `1`, elite mean `[[1]]`. -/
def stC3 : CemState :=
  { running_mean := [[1]], running_var := [[0]], sampled := [[[0]], [[1]]], elites := [1] }

/-- A calibrated random-strategy policy with two candidate sequences. -/
def pC6 : MPCPolicy :=
  { env := envAct, ac_dim := 1, dyn_models := [mId], horizon := 1, N := 2
    sample_strategy := "random", cem_iterations := 4, cem_num_elites := 5
    cem_alpha := 1, data_statistics := some [] }

/-- The uncalibrated variant of `pC6` (`data_statistics` unset). -/
def pC5 : MPCPolicy := { pC6 with data_statistics := none }

/-- A calibrated random-strategy policy with a single candidate
sequence (`N = 1`) and horizon 2. -/
def pC10 : MPCPolicy := { pC6 with N := 1, horizon := 2 }

/-! ### List indexing helpers -/

theorem getD_map_range {α : Type} (f : Nat → α) {n m : Nat} (hn : n < m) (d : α) :
    ((List.range m).map f).getD n d = f n := by
  rw [List.getD_eq_getElem _ _ (by simpa using hn)]
  simp

theorem getD_map_of_lt {α β : Type} (f : α → β) (l : List α) {k : Nat}
    (hk : k < l.length) (d : α) (d' : β) :
    (l.map f).getD k d' = f (l.getD k d) := by
  rw [List.getD_eq_getElem _ _ (by simpa using hk), List.getElem_map,
    List.getD_eq_getElem _ _ hk]

theorem getD_zip_map {α β γ : Type} (g : α × β → γ) (l₁ : List α) (l₂ : List β) {k : Nat}
    (h₁ : k < l₁.length) (h₂ : k < l₂.length) (d₁ : α) (d₂ : β) (dg : γ) :
    ((l₁.zip l₂).map g).getD k dg = g (l₁.getD k d₁, l₂.getD k d₂) := by
  have hz : k < (l₁.zip l₂).length := by
    rw [List.length_zip]; omega
  rw [List.getD_eq_getElem _ _ (by simpa using hz), List.getElem_map, List.getElem_zip,
    List.getD_eq_getElem _ _ h₁, List.getD_eq_getElem _ _ h₂]

theorem getD_replicate_of_lt {α : Type} (a d : α) {k n : Nat} (hk : k < n) :
    (List.replicate n a).getD k d = a := by
  rw [List.getD_eq_getElem _ _ (by simpa using hk), List.getElem_replicate]

/-! ### The rollout loop of `calculate_sum_of_rewards` -/

theorem rolloutState_zero (p : MPCPolicy) (model : DynModel) (seqs : List (List (List ℚ)))
    (obs : List ℚ) :
    rolloutState p model seqs obs 0 =
      (List.replicate seqs.length obs, List.replicate seqs.length (0 : ℚ)) := rfl

theorem rolloutState_succ (p : MPCPolicy) (model : DynModel) (seqs : List (List (List ℚ)))
    (obs : List ℚ) (m : Nat) :
    rolloutState p model seqs obs (m + 1) =
      rolloutStep p model seqs (rolloutState p model seqs obs m) m := by
  unfold rolloutState
  rw [List.range_succ, List.foldl_append, List.foldl_cons, List.foldl_nil]

theorem rolloutState_lengths (p : MPCPolicy) (model : DynModel) (seqs : List (List (List ℚ)))
    (obs : List ℚ) (m : Nat) :
    (rolloutState p model seqs obs m).1.length = seqs.length ∧
      (rolloutState p model seqs obs m).2.length = seqs.length := by
  induction m with
  | zero => simp [rolloutState_zero]
  | succ m ih =>
    obtain ⟨h1, h2⟩ := ih
    rw [rolloutState_succ]
    constructor
    · simp [rolloutStep, h1, h2]
    · simp [rolloutStep, h1, h2]

theorem rolloutState_getD (p : MPCPolicy) (model : DynModel) (seqs : List (List (List ℚ)))
    (obs : List ℚ) (m : Nat) {k : Nat} (hk : k < seqs.length) :
    (rolloutState p model seqs obs m).1.getD k [] =
      predictedObs p model (seqs.getD k []) obs m ∧
    (rolloutState p model seqs obs m).2.getD k 0 =
      ∑ t ∈ Finset.range m,
        (p.env.get_reward (predictedObs p model (seqs.getD k []) obs t)
          ((seqs.getD k []).getD t [])).1 := by
  induction m with
  | zero =>
    rw [rolloutState_zero]
    exact ⟨getD_replicate_of_lt _ _ hk, by rw [getD_replicate_of_lt _ _ hk]; simp⟩
  | succ m ih =>
    obtain ⟨hobs, hsum⟩ := ih
    obtain ⟨hl1, hl2⟩ := rolloutState_lengths p model seqs obs m
    rw [rolloutState_succ]
    have hact : (seqs.map fun s => s.getD m []).getD k [] = (seqs.getD k []).getD m [] :=
      getD_map_of_lt _ _ hk [] []
    have hactlen : k < (seqs.map fun s => s.getD m []).length := by
      rw [List.length_map]; exact hk
    have hrewlen :
        k < (((rolloutState p model seqs obs m).1.zip
          (seqs.map fun s => s.getD m [])).map
            fun oa => (p.env.get_reward oa.1 oa.2).1).length := by
      rw [List.length_map, List.length_zip, hl1, List.length_map]
      omega
    constructor
    · show (((rolloutState p model seqs obs m).1.zip (seqs.map fun s => s.getD m [])).map
        fun oa => model.get_prediction oa.1 oa.2 p.data_statistics).getD k [] = _
      rw [getD_zip_map _ _ _ (by rw [hl1]; exact hk) hactlen [] [] []]
      rw [hobs, hact]
      rfl
    · show (((rolloutState p model seqs obs m).2.zip
        (((rolloutState p model seqs obs m).1.zip (seqs.map fun s => s.getD m [])).map
          fun oa => (p.env.get_reward oa.1 oa.2).1)).map
            fun sr => sr.1 + sr.2).getD k 0 = _
      rw [getD_zip_map _ _ _ (by rw [hl2]; exact hk) hrewlen 0 0 0]
      rw [getD_zip_map _ _ _ (by rw [hl1]; exact hk) hactlen [] [] 0]
      rw [hobs, hact, hsum, Finset.sum_range_succ]

/-! ### Characterizing `calculate_sum_of_rewards` -/

theorem calculate_eq_some (p : MPCPolicy) (obs : List ℚ) (seqs : List (List (List ℚ)))
    (model : DynModel) (hAll : ∀ s ∈ seqs, s.length = p.horizon) :
    calculate_sum_of_rewards p obs seqs model =
      some (rolloutState p model seqs obs p.horizon).2 := by
  unfold calculate_sum_of_rewards
  rw [if_pos]
  rw [List.all_eq_true]
  intro s hs
  simpa using hAll s hs

theorem calculate_eq_none (p : MPCPolicy) (obs : List ℚ) (seqs : List (List (List ℚ)))
    (model : DynModel) (hBad : ∃ s ∈ seqs, s.length ≠ p.horizon) :
    calculate_sum_of_rewards p obs seqs model = none := by
  unfold calculate_sum_of_rewards
  rw [if_neg]
  rw [List.all_eq_true]
  obtain ⟨s, hs, hlen⟩ := hBad
  intro h
  exact hlen (by simpa using h s hs)

theorem calculate_some_length (p : MPCPolicy) (obs : List ℚ) (seqs : List (List (List ℚ)))
    (model : DynModel) {r : List ℚ}
    (h : calculate_sum_of_rewards p obs seqs model = some r) :
    r.length = seqs.length := by
  unfold calculate_sum_of_rewards at h
  split at h
  · cases h
    exact (rolloutState_lengths p model seqs obs p.horizon).2
  · cases h

theorem calculate_getD (p : MPCPolicy) (obs : List ℚ) (seqs : List (List (List ℚ)))
    (model : DynModel) (hAll : ∀ s ∈ seqs, s.length = p.horizon) {k : Nat}
    (hk : k < seqs.length) :
    ((calculate_sum_of_rewards p obs seqs model).getD []).getD k 0 =
      ∑ t ∈ Finset.range p.horizon,
        (p.env.get_reward (predictedObs p model (seqs.getD k []) obs t)
          ((seqs.getD k []).getD t [])).1 := by
  rw [calculate_eq_some p obs seqs model hAll, Option.getD_some]
  exact (rolloutState_getD p model seqs obs p.horizon hk).2

/-! ### Characterizing the ensemble fold of `evaluate_candidate_sequences` -/

theorem ensembleFold_none (p : MPCPolicy) (obs : List ℚ) (seqs : List (List (List ℚ)))
    (models : List DynModel) :
    models.foldl (ensembleStep p obs seqs) none = none := by
  induction models with
  | nil => rfl
  | cons m ms ih => simpa [ensembleStep] using ih

theorem ensembleFold_some (p : MPCPolicy) (obs : List ℚ) (seqs : List (List (List ℚ)))
    (models : List DynModel) (hAll : ∀ s ∈ seqs, s.length = p.horizon) (a : List ℚ)
    (ha : a.length = seqs.length) :
    ∃ s, models.foldl (ensembleStep p obs seqs) (some a) = some s ∧
      s.length = seqs.length ∧
      ∀ k, k < seqs.length →
        s.getD k 0 = a.getD k 0 +
          (models.map fun m =>
            ((calculate_sum_of_rewards p obs seqs m).getD []).getD k 0).sum := by
  induction models generalizing a with
  | nil => exact ⟨a, rfl, ha, fun k _ => by simp⟩
  | cons m ms ih =>
    have hc := calculate_eq_some p obs seqs m hAll
    set r := (rolloutState p m seqs obs p.horizon).2 with hr
    have hrlen : r.length = seqs.length := (rolloutState_lengths p m seqs obs p.horizon).2
    have hstep : ensembleStep p obs seqs (some a) m =
        some ((a.zip r).map fun xy => xy.1 + xy.2) := by
      simp [ensembleStep, hc]
    have ha' : ((a.zip r).map fun xy => xy.1 + xy.2).length = seqs.length := by
      rw [List.length_map, List.length_zip, ha, hrlen]
      omega
    obtain ⟨s, hfold, hslen, hsk⟩ := ih _ ha'
    refine ⟨s, ?_, hslen, ?_⟩
    · rw [List.foldl_cons, hstep]
      exact hfold
    · intro k hk
      rw [hsk k hk]
      rw [getD_zip_map _ _ _ (by rw [ha]; exact hk) (by rw [hrlen]; exact hk) 0 0 0]
      have : r.getD k 0 = ((calculate_sum_of_rewards p obs seqs m).getD []).getD k 0 := by
        rw [hc, Option.getD_some]
      rw [this, List.map_cons, List.sum_cons]
      ring

theorem ensembleFold_some_length (p : MPCPolicy) (obs : List ℚ)
    (seqs : List (List (List ℚ))) (models : List DynModel) (a : List ℚ)
    (ha : a.length = seqs.length) {s : List ℚ}
    (h : models.foldl (ensembleStep p obs seqs) (some a) = some s) :
    s.length = seqs.length := by
  induction models generalizing a with
  | nil => cases h; exact ha
  | cons m ms ih =>
    rw [List.foldl_cons] at h
    cases hc : calculate_sum_of_rewards p obs seqs m with
    | none =>
      rw [show ensembleStep p obs seqs (some a) m = none by simp [ensembleStep, hc],
        ensembleFold_none] at h
      cases h
    | some r =>
      have hrlen : r.length = seqs.length := calculate_some_length p obs seqs m hc
      rw [show ensembleStep p obs seqs (some a) m =
          some ((a.zip r).map fun xy => xy.1 + xy.2) by simp [ensembleStep, hc]] at h
      exact ih _ (by rw [List.length_map, List.length_zip, ha, hrlen]; omega) h

theorem evaluate_spec (p : MPCPolicy) (seqs : List (List (List ℚ))) (obs : List ℚ)
    (hAll : ∀ s ∈ seqs, s.length = p.horizon) :
    ∃ v, evaluate_candidate_sequences p seqs obs = some v ∧
      v.length = seqs.length ∧
      ∀ k, k < seqs.length →
        v.getD k 0 =
          (p.dyn_models.map fun m =>
            ((calculate_sum_of_rewards p obs seqs m).getD []).getD k 0).sum /
            (seqs.length : ℚ) := by
  obtain ⟨s, hfold, hslen, hsk⟩ :=
    ensembleFold_some p obs seqs p.dyn_models hAll
      (List.replicate seqs.length 0) (by simp)
  refine ⟨s.map fun x => x / (seqs.length : ℚ), ?_, by simpa using hslen, ?_⟩
  · simp only [evaluate_candidate_sequences]
    rw [hfold]
    rfl
  · intro k hk
    rw [getD_map_of_lt _ _ (by rw [hslen]; exact hk) 0 0, hsk k hk,
      getD_replicate_of_lt _ _ hk]
    ring

theorem evaluate_some_length (p : MPCPolicy) (seqs : List (List (List ℚ))) (obs : List ℚ)
    {v : List ℚ} (h : evaluate_candidate_sequences p seqs obs = some v) :
    v.length = seqs.length := by
  simp only [evaluate_candidate_sequences] at h
  cases hfold : p.dyn_models.foldl (ensembleStep p obs seqs)
      (some (List.replicate seqs.length 0)) with
  | none => rw [hfold] at h; cases h
  | some s =>
    rw [hfold, Option.map_some'] at h
    cases h
    rw [List.length_map]
    exact ensembleFold_some_length p obs seqs p.dyn_models _ (by simp) hfold

/-! ### `argsort`, the elite slice, and `np.argmax` -/

theorem argsort_perm (xs : List ℚ) : List.Perm (argsort xs) (List.range xs.length) :=
  List.perm_insertionSort _ _

theorem argsort_length (xs : List ℚ) : (argsort xs).length = xs.length := by
  rw [(argsort_perm xs).length_eq, List.length_range]

theorem argsort_sorted (xs : List ℚ) :
    List.Sorted (fun a b => xs.getD a 0 ≤ xs.getD b 0) (argsort xs) := by
  letI : IsTotal Nat fun a b => xs.getD a 0 ≤ xs.getD b 0 :=
    ⟨fun a b => le_total (xs.getD a 0) (xs.getD b 0)⟩
  letI : IsTrans Nat fun a b => xs.getD a 0 ≤ xs.getD b 0 :=
    ⟨fun _ _ _ hab hbc => le_trans hab hbc⟩
  exact List.sorted_insertionSort _ _

theorem sliceLastPy_all (l : List Nat) {e : Nat} (he : l.length ≤ e) :
    sliceLastPy l e = l := by
  unfold sliceLastPy
  split
  · rfl
  · rw [Nat.sub_eq_zero_of_le he, List.drop_zero]

theorem sliceLastPy_length (l : List Nat) (e : Nat) :
    (sliceLastPy l e).length = if e = 0 then l.length else min e l.length := by
  unfold sliceLastPy
  split
  · simp
  · rw [List.length_drop]
    omega

theorem argmaxAux_succ (xs : List ℚ) (m : Nat) :
    argmaxAux xs (m + 1) =
      if xs.getD (argmaxAux xs m) 0 < xs.getD m 0 then m else argmaxAux xs m := by
  unfold argmaxAux
  rw [List.range_succ, List.foldl_append, List.foldl_cons, List.foldl_nil]

theorem argmaxAux_spec (xs : List ℚ) (m : Nat) :
    (argmaxAux xs m = 0 ∨ argmaxAux xs m < m) ∧
      (∀ j, j < m → xs.getD j 0 ≤ xs.getD (argmaxAux xs m) 0) ∧
      (∀ j, j < argmaxAux xs m → xs.getD j 0 < xs.getD (argmaxAux xs m) 0) := by
  induction m with
  | zero =>
    refine ⟨Or.inl rfl, fun j hj => absurd hj (Nat.not_lt_zero j), fun j hj => ?_⟩
    have : argmaxAux xs 0 = 0 := rfl
    rw [this] at hj
    exact absurd hj (Nat.not_lt_zero j)
  | succ m ih =>
    obtain ⟨hb, hmax, hfirst⟩ := ih
    rw [argmaxAux_succ]
    by_cases hlt : xs.getD (argmaxAux xs m) 0 < xs.getD m 0
    · rw [if_pos hlt]
      refine ⟨Or.inr (Nat.lt_succ_self m), fun j hj => ?_, fun j hj => ?_⟩
      · rcases Nat.lt_succ_iff_lt_or_eq.mp hj with hjm | hjm
        · exact le_of_lt (lt_of_le_of_lt (hmax j hjm) hlt)
        · rw [hjm]
      · exact lt_of_le_of_lt (hmax j hj) hlt
    · rw [if_neg hlt]
      refine ⟨?_, fun j hj => ?_, hfirst⟩
      · rcases hb with h0 | hm
        · exact Or.inl h0
        · exact Or.inr (Nat.lt_succ_of_lt hm)
      · rcases Nat.lt_succ_iff_lt_or_eq.mp hj with hjm | hjm
        · exact hmax j hjm
        · rw [hjm]
          exact le_of_not_lt hlt

theorem np_argmax_lt (xs : List ℚ) (hne : xs ≠ []) : np_argmax xs < xs.length := by
  have hpos : 0 < xs.length := List.length_pos.mpr hne
  rcases (argmaxAux_spec xs xs.length).1 with h0 | hm
  · rw [np_argmax, h0]
    exact hpos
  · exact hm

theorem np_argmax_is_max (xs : List ℚ) :
    ∀ j, j < xs.length → xs.getD j 0 ≤ xs.getD (np_argmax xs) 0 :=
  (argmaxAux_spec xs xs.length).2.1

theorem np_argmax_first (xs : List ℚ) :
    ∀ j, j < np_argmax xs → xs.getD j 0 < xs.getD (np_argmax xs) 0 :=
  (argmaxAux_spec xs xs.length).2.2

/-! ### Shapes and entries of the sampled batches -/

theorem uniformSample_shape (p : MPCPolicy) (rng : RNG) (iter ns h : Nat) :
    batchShape ns h p.ac_dim (uniformSample p rng iter ns h) := by
  refine ⟨by simp [uniformSample], fun s hs => ?_⟩
  simp only [uniformSample, List.mem_map] at hs
  obtain ⟨n, _, rfl⟩ := hs
  refine ⟨by simp, fun act hact => ?_⟩
  simp only [List.mem_map] at hact
  obtain ⟨t, _, rfl⟩ := hact
  simp

theorem normalSample_shape (p : MPCPolicy) (rng : RNG) (mean var : List (List ℚ))
    (iter ns h : Nat) :
    batchShape ns h p.ac_dim (normalSample p rng mean var iter ns h) := by
  refine ⟨by simp [normalSample], fun s hs => ?_⟩
  simp only [normalSample, List.mem_map] at hs
  obtain ⟨n, _, rfl⟩ := hs
  refine ⟨by simp, fun act hact => ?_⟩
  simp only [List.mem_map] at hact
  obtain ⟨t, _, rfl⟩ := hact
  simp

theorem uniformSample_entry (p : MPCPolicy) (rng : RNG) (iter : Nat) {ns h n t i : Nat}
    (hn : n < ns) (ht : t < h) (hi : i < p.ac_dim) :
    indexSeq (uniformSample p rng iter ns h) n t i =
      p.env.low.getD i 0 +
        (p.env.high.getD i 0 - p.env.low.getD i 0) * rng.unif01 iter n t i := by
  unfold indexSeq uniformSample
  rw [getD_map_range _ hn, getD_map_range _ ht, getD_map_range _ hi]

theorem eliteMean_length (seqs : List (List (List ℚ))) (idxs : List Nat) (h a : Nat) :
    (eliteMean seqs idxs h a).length = h := by
  simp [eliteMean]

theorem eliteMean_row_length (seqs : List (List (List ℚ))) (idxs : List Nat) (h a : Nat) :
    ∀ row ∈ eliteMean seqs idxs h a, row.length = a := by
  intro row hrow
  simp only [eliteMean, List.mem_map] at hrow
  obtain ⟨t, _, rfl⟩ := hrow
  simp

theorem eliteMean_entry (seqs : List (List (List ℚ))) (idxs : List Nat) {h a t i : Nat}
    (ht : t < h) (hi : i < a) :
    ((eliteMean seqs idxs h a).getD t []).getD i 0 =
      (idxs.map fun n => indexSeq seqs n t i).sum / (idxs.length : ℚ) := by
  unfold eliteMean
  rw [getD_map_range _ ht, getD_map_range _ hi]

/-! ### The CEM refinement loop -/

theorem cemStep0_spec (p : MPCPolicy) (rng : RNG) (obs : List ℚ) (ns h : Nat)
    {st : CemState} (hstep : cemStep0 p rng obs ns h = some st) :
    lastIterWitness p obs st ∧ batchShape ns h p.ac_dim st.sampled := by
  simp only [cemStep0] at hstep
  cases heval : evaluate_candidate_sequences p (uniformSample p rng 0 ns h) obs with
  | none => rw [heval] at hstep; cases hstep
  | some rewards =>
    rw [heval] at hstep
    cases hstep
    exact ⟨⟨rewards, heval, rfl⟩, uniformSample_shape p rng 0 ns h⟩

theorem cemStepSucc_spec (p : MPCPolicy) (rng : RNG) (obs : List ℚ) (ns h iter : Nat)
    (st0 : CemState) {st : CemState}
    (hstep : cemStepSucc p rng obs ns h iter st0 = some st) :
    lastIterWitness p obs st ∧ batchShape ns h p.ac_dim st.sampled := by
  simp only [cemStepSucc] at hstep
  cases heval : evaluate_candidate_sequences p
      (normalSample p rng st0.running_mean st0.running_var iter ns h) obs with
  | none => rw [heval] at hstep; cases hstep
  | some rewards =>
    rw [heval] at hstep
    cases hstep
    exact ⟨⟨rewards, heval, rfl⟩, normalSample_shape p rng _ _ iter ns h⟩

theorem cemFold_spec (p : MPCPolicy) (rng : RNG) (obs : List ℚ) (ns h : Nat)
    (l : List Nat) (o : Option CemState)
    (ho : ∀ st, o = some st → lastIterWitness p obs st ∧ batchShape ns h p.ac_dim st.sampled) :
    ∀ st, l.foldl (fun ost j => ost.bind (cemStepSucc p rng obs ns h (j + 1))) o = some st →
      lastIterWitness p obs st ∧ batchShape ns h p.ac_dim st.sampled := by
  induction l generalizing o with
  | nil => exact ho
  | cons j l ih =>
    intro st hst
    rw [List.foldl_cons] at hst
    refine ih (o.bind (cemStepSucc p rng obs ns h (j + 1))) ?_ st hst
    intro st1 hst1
    cases o with
    | none => cases hst1
    | some st0 =>
      rw [Option.some_bind] at hst1
      exact cemStepSucc_spec p rng obs ns h (j + 1) st0 hst1

theorem cem_run_spec (p : MPCPolicy) (rng : RNG) (obs : List ℚ) (ns h : Nat)
    {st : CemState} (hrun : cem_run p rng obs ns h = some st) :
    lastIterWitness p obs st ∧ batchShape ns h p.ac_dim st.sampled := by
  unfold cem_run at hrun
  split at hrun
  · cases hrun
  · exact cemFold_spec p rng obs ns h _ _
      (fun st1 hst1 => cemStep0_spec p rng obs ns h hst1) st hrun

/-! ### Branches of `sample_action_sequences` and `get_action` -/

theorem sample_of_random (p : MPCPolicy) (rng : RNG) (ns h : Nat) (obs : Option (List ℚ))
    (hstrat : p.sample_strategy = "random" ∨ (p.sample_strategy = "cem" ∧ obs = none)) :
    sample_action_sequences p rng ns h obs = some (uniformSample p rng 0 ns h) := by
  unfold sample_action_sequences
  rw [if_pos hstrat]

theorem sample_of_cem (p : MPCPolicy) (rng : RNG) (ns h : Nat) (o : List ℚ)
    (hstrat : p.sample_strategy = "cem") :
    sample_action_sequences p rng ns h (some o) =
      (cem_run p rng o ns h).map fun st =>
        [eliteMean st.sampled st.elites h p.ac_dim] := by
  unfold sample_action_sequences
  have hne : ¬(p.sample_strategy = "random" ∨
      (p.sample_strategy = "cem" ∧ (some o : Option (List ℚ)) = none)) := by
    rintro (h1 | ⟨h2, h3⟩)
    · rw [hstrat] at h1
      exact absurd h1 (by decide)
    · cases h3
  rw [if_neg hne, if_pos hstrat]

theorem get_action_uncalibrated (p : MPCPolicy) (rng : RNG) (obs : List ℚ)
    (hstats : p.data_statistics = none)
    (hstrat : p.sample_strategy = "random" ∨ p.sample_strategy = "cem") :
    get_action p rng obs =
      some [(List.range p.ac_dim).map fun i =>
        p.env.low.getD i 0 +
          (p.env.high.getD i 0 - p.env.low.getD i 0) * rng.unif01 0 0 0 i] := by
  have hs : sample_action_sequences p rng 1 1 none =
      some (uniformSample p rng 0 1 1) := by
    apply sample_of_random
    rcases hstrat with h | h
    · exact Or.inl h
    · exact Or.inr ⟨h, rfl⟩
  simp only [get_action, hstats, hs, Option.map_some']
  have : uniformSample p rng 0 1 1 =
      [[(List.range p.ac_dim).map fun i =>
        p.env.low.getD i 0 +
          (p.env.high.getD i 0 - p.env.low.getD i 0) * rng.unif01 0 0 0 i]] := by
    have h1 : List.range 1 = [0] := rfl
    simp [uniformSample, h1]
  rw [this]
  rfl

theorem get_action_calibrated_single (p : MPCPolicy) (rng : RNG) (obs : List ℚ)
    (ds : DataStats) (hstats : p.data_statistics = some ds)
    (hstrat : p.sample_strategy = "random") (hN : p.N = 1) :
    get_action p rng obs =
      some [((uniformSample p rng 0 1 p.horizon).getD 0 []).getD 0 []] := by
  have hs : sample_action_sequences p rng p.N p.horizon (some obs) =
      some (uniformSample p rng 0 1 p.horizon) := by
    rw [sample_of_random p rng p.N p.horizon (some obs) (Or.inl hstrat), hN]
  have hlen : (uniformSample p rng 0 1 p.horizon).length = 1 := by
    simp [uniformSample]
  simp only [get_action, hstats, hs]
  rw [if_pos hlen]

/-! ### Claim theorems -/

/-- C9: constructing a policy with any `sample_strategy` other than
`random` or `cem` fails with a configuration error at construction
time; construction with `random` or `cem` succeeds and stores the
strategy. -/
theorem C9_strategy_validated_at_construction (env : Env) (ac_dim : Nat)
    (models : List DynModel) (horizon N : Nat) (s : String) (ci ce : Nat) (ca : ℚ) :
    (s = "random" ∨ s = "cem" →
      (MPCPolicy.init env ac_dim models horizon N s ci ce ca).toOption.map
        (fun q => q.sample_strategy) = some s) ∧
    (¬(s = "random" ∨ s = "cem") →
      MPCPolicy.init env ac_dim models horizon N s ci ce ca =
        Except.error "sample_strategy must be one of the following") := by
  constructor
  · intro hs
    unfold MPCPolicy.init
    rw [if_pos hs]
    rfl
  · intro hs
    unfold MPCPolicy.init
    rw [if_neg hs]

/-- C9 witness: a concrete valid and a concrete invalid construction. -/
theorem C9_strategy_validated_at_construction_witness :
    (MPCPolicy.init envAct 1 [] 2 3 "random" 4 5 1).toOption.map
      (fun q => q.sample_strategy) = some "random" ∧
    MPCPolicy.init envAct 1 [] 2 3 "foo" 4 5 1 =
      Except.error "sample_strategy must be one of the following" :=
  ⟨(C9_strategy_validated_at_construction envAct 1 [] 2 3 "random" 4 5 1).1 (Or.inl rfl),
   (C9_strategy_validated_at_construction envAct 1 [] 2 3 "foo" 4 5 1).2 (by decide)⟩

/-- C2 counterexample: constructing with `cem_num_elites = 5` greater
than `N = 3` succeeds — no configuration error is raised at
construction time, refuting the claim. -/
theorem C2_counterexample :
    (MPCPolicy.init envAct 1 [] 2 3 "cem" 4 5 1).toOption.map
      (fun q => (q.sample_strategy, q.cem_num_elites, q.N)) = some ("cem", 5, 3) ∧
    3 < 5 := by
  constructor
  · rfl
  · decide

/-- C2 (amended): construction never validates `cem_num_elites`
against `N` — a policy with `cem_num_elites > N` is constructed
successfully — and during sampling the elite slice handles the excess
silently: whenever `cem_num_elites` is at least the number of reward
entries, the slice of the argsort keeps every candidate index. -/
theorem C2_no_elite_count_validation (env : Env) (ac_dim : Nat) (models : List DynModel)
    (horizon N ci e : Nat) (ca : ℚ) (rewards : List ℚ) (he : rewards.length ≤ e) :
    (MPCPolicy.init env ac_dim models horizon N "cem" ci e ca).toOption.map
      (fun q => (q.cem_num_elites, q.N)) = some (e, N) ∧
    sliceLastPy (argsort rewards) e = argsort rewards ∧
    (sliceLastPy (argsort rewards) e).length = rewards.length := by
  refine ⟨?_, ?_, ?_⟩
  · unfold MPCPolicy.init
    rw [if_pos (Or.inr rfl)]
    rfl
  · exact sliceLastPy_all _ (by rw [argsort_length]; exact he)
  · rw [sliceLastPy_all _ (by rw [argsort_length]; exact he), argsort_length]

/-- C2 witness: with three rewards and five elites requested, the
construction succeeds and the elite slice keeps all three indices. -/
theorem C2_no_elite_count_validation_witness :
    (MPCPolicy.init envAct 1 [] 2 3 "cem" 4 5 1).toOption.map
      (fun q => (q.cem_num_elites, q.N)) = some (5, 3) ∧
    sliceLastPy (argsort [1, 2, 3]) 5 = argsort [1, 2, 3] :=
  ⟨(C2_no_elite_count_validation envAct 1 [] 2 3 4 5 1 [1, 2, 3] (by decide)).1,
   (C2_no_elite_count_validation envAct 1 [] 2 3 4 5 1 [1, 2, 3] (by decide)).2.1⟩

/-- C8: `calculate_sum_of_rewards` on a rectangular nonempty batch
fails fatally when the batch horizon differs from the configured
horizon, and succeeds (the failure branch is unreachable) when they
agree. -/
theorem C8_horizon_precondition (p : MPCPolicy) (obs : List ℚ)
    (seqs : List (List (List ℚ))) (model : DynModel) (L : Nat)
    (hrect : ∀ s ∈ seqs, s.length = L) (hne : seqs ≠ []) :
    (L ≠ p.horizon → calculate_sum_of_rewards p obs seqs model = none) ∧
    (L = p.horizon → (calculate_sum_of_rewards p obs seqs model).isSome = true) := by
  constructor
  · intro hL
    apply calculate_eq_none
    obtain ⟨s, hs⟩ := List.exists_mem_of_ne_nil seqs hne
    exact ⟨s, hs, by rw [hrect s hs]; exact hL⟩
  · intro hL
    rw [calculate_eq_some p obs seqs model fun s hs => by rw [hrect s hs, hL]]
    rfl

/-- C8 witness: a horizon-2 batch fails against the horizon-1 policy
`pC6`; a horizon-1 batch succeeds. -/
theorem C8_horizon_precondition_witness :
    calculate_sum_of_rewards pC6 [0] [[[0], [1]]] mId = none ∧
    (calculate_sum_of_rewards pC6 [0] [[[0]]] mId).isSome = true :=
  ⟨(C8_horizon_precondition pC6 [0] [[[0], [1]]] mId 2 (by decide) (by decide)).1 (by decide),
   (C8_horizon_precondition pC6 [0] [[[0]]] mId 1 (by decide) (by decide)).2 rfl⟩

/-- C7: with the random strategy (or the cem strategy and no
observation), `sample_action_sequences` returns the `(ns, h, ac_dim)`
uniform batch, every element of dimension `i` lying within
`[low[i], high[i]]`. -/
theorem C7_random_sampling_shape_and_bounds (p : MPCPolicy) (rng : RNG) (ns h : Nat)
    (obs : Option (List ℚ))
    (hstrat : p.sample_strategy = "random" ∨ (p.sample_strategy = "cem" ∧ obs = none))
    (hrng : ∀ n t i : Nat, 0 ≤ rng.unif01 0 n t i ∧ rng.unif01 0 n t i ≤ 1)
    (hbnd : ∀ i : Nat, i < p.ac_dim → p.env.low.getD i 0 ≤ p.env.high.getD i 0) :
    sample_action_sequences p rng ns h obs = some (uniformSample p rng 0 ns h) ∧
    batchShape ns h p.ac_dim (uniformSample p rng 0 ns h) ∧
    ∀ n t i : Nat, n < ns → t < h → i < p.ac_dim →
      p.env.low.getD i 0 ≤ indexSeq (uniformSample p rng 0 ns h) n t i ∧
      indexSeq (uniformSample p rng 0 ns h) n t i ≤ p.env.high.getD i 0 := by
  refine ⟨sample_of_random p rng ns h obs hstrat, uniformSample_shape p rng 0 ns h, ?_⟩
  intro n t i hn ht hi
  rw [uniformSample_entry p rng 0 hn ht hi]
  obtain ⟨hu0, hu1⟩ := hrng n t i
  have hlh := hbnd i hi
  constructor
  · nlinarith
  · nlinarith

/-- C7 witness: the concrete random-strategy policy `pC6` with the
deterministic oracle `rngT`, element `(1, 0, 0)` within the bounds. -/
theorem C7_random_sampling_shape_and_bounds_witness :
    sample_action_sequences pC6 rngT 2 1 none = some (uniformSample pC6 rngT 0 2 1) ∧
    pC6.env.low.getD 0 0 ≤ indexSeq (uniformSample pC6 rngT 0 2 1) 1 0 0 ∧
    indexSeq (uniformSample pC6 rngT 0 2 1) 1 0 0 ≤ pC6.env.high.getD 0 0 := by
  have h := C7_random_sampling_shape_and_bounds pC6 rngT 2 1 none (Or.inl rfl)
    (fun n t i => by
      show (0 : ℚ) ≤ rngT.unif01 0 n t i ∧ rngT.unif01 0 n t i ≤ 1
      dsimp [rngT]
      split <;> norm_num)
    (fun i hi => by
      have hi1 : i < 1 := hi
      interval_cases i
      · show ((0 : ℚ)) ≤ 1
        norm_num)
  obtain ⟨hb1, hb2⟩ := h.2.2 1 0 0 (by decide) (by decide) (by decide)
  exact ⟨h.1, hb1, hb2⟩

/-- C5: with `data_statistics` unset, `get_action` returns the first
action of a single randomly sampled one-step sequence — an action
vector of dimension `ac_dim` within the bounds, wrapped in the batch-of
one list the code produces — and its result is independent of the
reward function and the dynamics models, which are never consulted. -/
theorem C5_uncalibrated_fallback (p : MPCPolicy) (rng : RNG) (obs : List ℚ)
    (hstats : p.data_statistics = none)
    (hstrat : p.sample_strategy = "random" ∨ p.sample_strategy = "cem")
    (hrng : ∀ n t i : Nat, 0 ≤ rng.unif01 0 n t i ∧ rng.unif01 0 n t i ≤ 1)
    (hbnd : ∀ i : Nat, i < p.ac_dim → p.env.low.getD i 0 ≤ p.env.high.getD i 0) :
    get_action p rng obs =
      some [(List.range p.ac_dim).map fun i =>
        p.env.low.getD i 0 +
          (p.env.high.getD i 0 - p.env.low.getD i 0) * rng.unif01 0 0 0 i] ∧
    ((List.range p.ac_dim).map fun i =>
      p.env.low.getD i 0 +
        (p.env.high.getD i 0 - p.env.low.getD i 0) * rng.unif01 0 0 0 i).length =
      p.ac_dim ∧
    (∀ i : Nat, i < p.ac_dim →
      p.env.low.getD i 0 ≤
        ((List.range p.ac_dim).map fun j =>
          p.env.low.getD j 0 +
            (p.env.high.getD j 0 - p.env.low.getD j 0) * rng.unif01 0 0 0 j).getD i 0 ∧
      ((List.range p.ac_dim).map fun j =>
        p.env.low.getD j 0 +
          (p.env.high.getD j 0 - p.env.low.getD j 0) * rng.unif01 0 0 0 j).getD i 0 ≤
        p.env.high.getD i 0) ∧
    ∀ q : MPCPolicy, q.data_statistics = none → q.sample_strategy = p.sample_strategy →
      q.ac_dim = p.ac_dim → q.env.low = p.env.low → q.env.high = p.env.high →
      get_action q rng obs = get_action p rng obs := by
  refine ⟨get_action_uncalibrated p rng obs hstats hstrat, by simp, ?_, ?_⟩
  · intro i hi
    rw [getD_map_range _ hi 0]
    obtain ⟨hu0, hu1⟩ := hrng 0 0 i
    have hlh := hbnd i hi
    constructor
    · nlinarith
    · nlinarith
  · intro q hq1 hq2 hq3 hq4 hq5
    rw [get_action_uncalibrated q rng obs hq1 (by rw [hq2]; exact hstrat),
      get_action_uncalibrated p rng obs hstats hstrat, hq3, hq4, hq5]

/-- C5 witness: the uncalibrated policy `pC5` returns the single
uniformly drawn action `[0]` (bounds `[0, 1]`, unit draw `0`). -/
theorem C5_uncalibrated_fallback_witness :
    get_action pC5 rngT [3] =
      some [(List.range pC5.ac_dim).map fun i =>
        pC5.env.low.getD i 0 +
          (pC5.env.high.getD i 0 - pC5.env.low.getD i 0) * rngT.unif01 0 0 0 i] ∧
    get_action pC5 rngT [3] = some [[0]] := by
  have h := C5_uncalibrated_fallback pC5 rngT [3] rfl (Or.inl rfl)
    (fun n t i => by
      show (0 : ℚ) ≤ rngT.unif01 0 n t i ∧ rngT.unif01 0 n t i ≤ 1
      dsimp [rngT]
      split <;> norm_num)
    (fun i hi => by
      have hi1 : i < 1 := hi
      interval_cases i
      · show ((0 : ℚ)) ≤ 1
        norm_num)
  refine ⟨h.1, ?_⟩
  rw [h.1]
  norm_num [pC5, pC6, envAct, rngT, List.range_succ]

/-- C10: in the calibrated state the single-sequence shortcut is
triggered by batch size alone: a random-strategy policy with `N = 1`
returns the first action of the one sampled sequence, and the result
is independent of the reward function and the dynamics models
(`evaluate_candidate_sequences` is never consulted). -/
theorem C10_single_sequence_shortcut (p : MPCPolicy) (rng : RNG) (obs : List ℚ)
    (ds : DataStats) (hstats : p.data_statistics = some ds)
    (hstrat : p.sample_strategy = "random") (hN : p.N = 1) :
    get_action p rng obs =
      some [((uniformSample p rng 0 1 p.horizon).getD 0 []).getD 0 []] ∧
    ∀ (q : MPCPolicy) (ds2 : DataStats), q.data_statistics = some ds2 →
      q.sample_strategy = "random" → q.N = 1 → q.horizon = p.horizon →
      q.ac_dim = p.ac_dim → q.env.low = p.env.low → q.env.high = p.env.high →
      get_action q rng obs = get_action p rng obs := by
  refine ⟨get_action_calibrated_single p rng obs ds hstats hstrat hN, ?_⟩
  intro q ds2 hq1 hq2 hq3 hq4 hq5 hq6 hq7
  rw [get_action_calibrated_single q rng obs ds2 hq1 hq2 hq3,
    get_action_calibrated_single p rng obs ds hstats hstrat hN]
  have : uniformSample q rng 0 1 q.horizon = uniformSample p rng 0 1 p.horizon := by
    unfold uniformSample
    rw [hq4, hq5, hq6, hq7]
  rw [this]

/-- C10 witness: the calibrated random-strategy policy `pC10`
(`N = 1`, horizon 2) returns the first sampled action without any
evaluation. -/
theorem C10_single_sequence_shortcut_witness :
    get_action pC10 rngT [0] =
      some [((uniformSample pC10 rngT 0 1 pC10.horizon).getD 0 []).getD 0 []] ∧
    get_action pC10 rngT [0] = some [[0]] := by
  have h := C10_single_sequence_shortcut pC10 rngT [0] [] rfl rfl rfl
  refine ⟨h.1, ?_⟩
  rw [h.1]
  norm_num [uniformSample, pC10, pC6, envAct, rngT, List.range_succ]

/-- C6: in the calibrated state with more than one candidate,
`get_action` returns the first action of the sequence at the
`np.argmax` index of the evaluated rewards — the maximum, with the
first (least) maximizing index as the fixed tie-break. -/
theorem C6_argmax_selection (p : MPCPolicy) (rng : RNG) (obs : List ℚ) (ds : DataStats)
    (cand : List (List (List ℚ))) (rewards : List ℚ)
    (hstats : p.data_statistics = some ds)
    (hsamp : sample_action_sequences p rng p.N p.horizon (some obs) = some cand)
    (hlen : 1 < cand.length)
    (heval : evaluate_candidate_sequences p cand obs = some rewards) :
    get_action p rng obs = some [(cand.getD (np_argmax rewards) []).getD 0 []] ∧
    np_argmax rewards < rewards.length ∧
    (∀ j, j < rewards.length → rewards.getD j 0 ≤ rewards.getD (np_argmax rewards) 0) ∧
    (∀ j, j < np_argmax rewards → rewards.getD j 0 < rewards.getD (np_argmax rewards) 0) := by
  have hrwlen : rewards.length = cand.length := evaluate_some_length p cand obs heval
  have hne : rewards ≠ [] := by
    intro hnil
    rw [hnil] at hrwlen
    simp at hrwlen
    omega
  refine ⟨?_, np_argmax_lt rewards hne, np_argmax_is_max rewards, np_argmax_first rewards⟩
  simp only [get_action, hstats, hsamp]
  rw [if_neg (by omega : ¬cand.length = 1), heval]

/-- C6 witness: `pC6` samples candidates `[[0]]` and `[[1]]` with
rewards `[0, 1/2]`; the argmax index `1` wins and its first action is
returned. -/
theorem C6_argmax_selection_witness :
    get_action pC6 rngT [0] =
      some [(([[[0]], [[1]]] : List (List (List ℚ))).getD (np_argmax [0, 1/2]) []).getD 0 []] ∧
    get_action pC6 rngT [0] = some [[1]] := by
  have h := C6_argmax_selection pC6 rngT [0] [] [[[0]], [[1]]] [0, 1/2] rfl
    (by norm_num [sample_action_sequences, pC6, envAct, uniformSample, rngT, List.range_succ])
    (by norm_num)
    (by norm_num [evaluate_candidate_sequences, ensembleStep, calculate_sum_of_rewards,
      rolloutState, rolloutStep, pC6, envAct, mId, List.range_succ, List.replicate_succ])
  refine ⟨h.1, ?_⟩
  rw [h.1]
  norm_num [np_argmax, argmaxAux, List.range_succ]

/-- C4: under the horizon precondition, `calculate_sum_of_rewards`
returns the length-`N` vector whose entry `k` is the sum over all
`horizon` timesteps of the rewards of `env.get_reward` along the
model-predicted trajectory started from the tiled observation; the
done flag never truncates: the result is unchanged under any change of
the done component of the reward function, and the sum always ranges
over the full horizon. -/
theorem C4_full_horizon_reward_sum (p : MPCPolicy) (obs : List ℚ)
    (seqs : List (List (List ℚ))) (model : DynModel)
    (hAll : ∀ s ∈ seqs, s.length = p.horizon) :
    ∃ r, calculate_sum_of_rewards p obs seqs model = some r ∧
      r.length = seqs.length ∧
      (∀ k, k < seqs.length →
        r.getD k 0 = ∑ t ∈ Finset.range p.horizon,
          (p.env.get_reward (predictedObs p model (seqs.getD k []) obs t)
            ((seqs.getD k []).getD t [])).1) ∧
      ∀ q : MPCPolicy, q.horizon = p.horizon → q.data_statistics = p.data_statistics →
        (∀ o a, (q.env.get_reward o a).1 = (p.env.get_reward o a).1) →
        calculate_sum_of_rewards q obs seqs model =
          calculate_sum_of_rewards p obs seqs model := by
  refine ⟨(rolloutState p model seqs obs p.horizon).2,
    calculate_eq_some p obs seqs model hAll,
    (rolloutState_lengths p model seqs obs p.horizon).2,
    fun k hk => (rolloutState_getD p model seqs obs p.horizon hk).2, ?_⟩
  intro q hqh hqs hqr
  have hstep : rolloutStep q model seqs = rolloutStep p model seqs := by
    funext st t
    simp only [rolloutStep, hqs]
    have hrew : (fun oa : List ℚ × List ℚ => (q.env.get_reward oa.1 oa.2).1) =
        fun oa : List ℚ × List ℚ => (p.env.get_reward oa.1 oa.2).1 :=
      funext fun oa => hqr oa.1 oa.2
    rw [hrew]
  have hrs : rolloutState q model seqs obs = rolloutState p model seqs obs := by
    funext m
    unfold rolloutState
    rw [hstep]
  unfold calculate_sum_of_rewards
  rw [hqh, hrs]

/-- C4 witness: the horizon-1 policy `pC6` on the one-candidate batch
`[[[7]]]`: the accumulated vector entry equals the one-step reward sum
(the reward is the action value, `7`). -/
theorem C4_full_horizon_reward_sum_witness :
    ((calculate_sum_of_rewards pC6 [0] [[[7]]] mId).getD []).getD 0 0 =
      (∑ t ∈ Finset.range pC6.horizon,
        (pC6.env.get_reward (predictedObs pC6 mId ([[[7]]].getD 0 []) [0] t)
          (([[[7]]].getD 0 []).getD t [])).1) ∧
    ((calculate_sum_of_rewards pC6 [0] [[[7]]] mId).getD []).getD 0 0 = 7 := by
  obtain ⟨r, hr, hrlen, hrk, -⟩ :=
    C4_full_horizon_reward_sum pC6 [0] [[[7]]] mId (by norm_num [pC6])
  constructor
  · rw [hr, Option.getD_some]
    exact hrk 0 (by norm_num)
  · rw [hr, Option.getD_some]
    rw [hrk 0 (by norm_num)]
    show (∑ t ∈ Finset.range 1, _) = (7 : ℚ)
    rw [Finset.sum_range_one]
    norm_num [pC6, envAct, predictedObs]

/-- C1 (amended): every entry of `evaluate_candidate_sequences` is the
SUM across the ensemble models of that candidate's
`calculate_sum_of_rewards` entry, divided by the number `N` of
candidate sequences (the code accumulates over models without dividing
by the ensemble size; for a one-model ensemble this coincides with the
across-models average divided by `N`, and the `N = 1`, single
constant-reward-model entry is `horizon * constant`). -/
theorem C1_entries_are_model_sum_over_N (p : MPCPolicy) (seqs : List (List (List ℚ)))
    (obs : List ℚ) (hAll : ∀ s ∈ seqs, s.length = p.horizon) :
    ∃ v, evaluate_candidate_sequences p seqs obs = some v ∧
      v.length = seqs.length ∧
      ∀ k, k < seqs.length →
        v.getD k 0 =
          (p.dyn_models.map fun m =>
            ((calculate_sum_of_rewards p obs seqs m).getD []).getD k 0).sum /
            (seqs.length : ℚ) :=
  evaluate_spec p seqs obs hAll

/-- C1 counterexample: for the two-model constant-reward ensemble
`pC1` (horizon 1, reward 1, one candidate), the claimed value — the
elementwise average across the models, divided by `N = 1` — is `1`,
but the code returns `2` (it sums over the models instead of
averaging). -/
theorem C1_counterexample :
    evaluate_candidate_sequences pC1 [[[0]]] [0] = some [2] ∧
    ((pC1.dyn_models.map fun m =>
        ((calculate_sum_of_rewards pC1 [0] [[[0]]] m).getD []).getD 0 0).sum /
      (pC1.dyn_models.length : ℚ)) / (([[[0]]] : List (List (List ℚ))).length : ℚ) = 1 ∧
    (2 : ℚ) ≠ 1 := by
  refine ⟨?_, ?_, by norm_num⟩
  · norm_num [evaluate_candidate_sequences, ensembleStep, calculate_sum_of_rewards,
      rolloutState, rolloutStep, pC1, envConst1, mId, List.range_succ]
  · norm_num [calculate_sum_of_rewards, rolloutState, rolloutStep, pC1, envConst1,
      mId, List.range_succ]

/-- C1 witness: the amended theorem applied to `pC1` at candidate `0`:
the single entry is the model sum `1 + 1 = 2` divided by `N = 1`. -/
theorem C1_entries_are_model_sum_over_N_witness :
    (evaluate_candidate_sequences pC1 [[[0]]] [0]).isSome = true ∧
    ((evaluate_candidate_sequences pC1 [[[0]]] [0]).getD []).getD 0 0 =
      (pC1.dyn_models.map fun m =>
        ((calculate_sum_of_rewards pC1 [0] [[[0]]] m).getD []).getD 0 0).sum /
        (([[[0]]] : List (List (List ℚ))).length : ℚ) := by
  obtain ⟨v, hv, hvlen, hvk⟩ :=
    C1_entries_are_model_sum_over_N pC1 [[[0]]] [0] (by norm_num [pC1])
  constructor
  · rw [hv]
    rfl
  · rw [hv, Option.getD_some]
    exact hvk 0 (by norm_num)

/-- C3: a cem-strategy call of `sample_action_sequences` with an
observation returns the batch of exactly one sequence of shape
`(1, horizon, ac_dim)` whose single sequence is the elementwise mean
of the `cem_num_elites` top-ranked (by evaluated reward, ascending
argsort tail) sequences of the last refinement iteration — the elite
mean of the final iteration, computed from that iteration's sampled
batch, not the smoothed running mean. -/
theorem C3_cem_returns_last_elite_mean (p : MPCPolicy) (rng : RNG) (o : List ℚ)
    (ns h : Nat) (st : CemState) (hstrat : p.sample_strategy = "cem")
    (hrun : cem_run p rng o ns h = some st) :
    sample_action_sequences p rng ns h (some o) =
      some [eliteMean st.sampled st.elites h p.ac_dim] ∧
    (eliteMean st.sampled st.elites h p.ac_dim).length = h ∧
    (∀ row ∈ eliteMean st.sampled st.elites h p.ac_dim, row.length = p.ac_dim) ∧
    (∀ t i : Nat, t < h → i < p.ac_dim →
      ((eliteMean st.sampled st.elites h p.ac_dim).getD t []).getD i 0 =
        (st.elites.map fun n => indexSeq st.sampled n t i).sum / (st.elites.length : ℚ)) ∧
    (∃ rewards, evaluate_candidate_sequences p st.sampled o = some rewards ∧
      st.elites = sliceLastPy (argsort rewards) p.cem_num_elites ∧
      (p.cem_num_elites ≠ 0 →
        ∀ a ∈ (argsort rewards).take ((argsort rewards).length - p.cem_num_elites),
          ∀ b ∈ st.elites, rewards.getD a 0 ≤ rewards.getD b 0)) ∧
    batchShape ns h p.ac_dim st.sampled := by
  obtain ⟨⟨rewards, heval, helites⟩, hshape⟩ := cem_run_spec p rng o ns h hrun
  refine ⟨?_, eliteMean_length _ _ _ _, eliteMean_row_length _ _ _ _,
    fun t i ht hi => eliteMean_entry _ _ ht hi,
    ⟨rewards, heval, helites, ?_⟩, hshape⟩
  · rw [sample_of_cem p rng ns h o hstrat, hrun, Option.map_some']
  · intro hE a ha b hb
    rw [helites] at hb
    unfold sliceLastPy at hb
    rw [if_neg hE] at hb
    exact (argsort_sorted rewards).rel_of_mem_take_of_mem_drop ha hb

/-- C3 witness: the concrete cem policy `pC3` reaches the state
`stC3`; the returned batch is the single elite mean of the final (and
only) iteration, `[[[1]]]`. -/
theorem C3_cem_returns_last_elite_mean_witness :
    cem_run pC3 rngT [0] 2 1 = some stC3 ∧
    sample_action_sequences pC3 rngT 2 1 (some [0]) =
      some [eliteMean stC3.sampled stC3.elites 1 pC3.ac_dim] ∧
    sample_action_sequences pC3 rngT 2 1 (some [0]) = some [[[1]]] := by
  have hrun : cem_run pC3 rngT [0] 2 1 = some stC3 := by
    norm_num [cem_run, cemStep0, stC3, uniformSample, pC3, envAct, rngT, List.range_succ,
      evaluate_candidate_sequences, ensembleStep, calculate_sum_of_rewards,
      rolloutState, rolloutStep, mId, argsort, sliceLastPy, eliteMean, eliteVar, indexSeq]
  have h := C3_cem_returns_last_elite_mean pC3 rngT [0] 2 1 stC3 rfl hrun
  refine ⟨hrun, h.1, ?_⟩
  rw [h.1]
  norm_num [eliteMean, stC3, pC3, indexSeq, List.range_succ]
